import Mathlib

/-!
Verification of the geometric pipeline in tools/convert_countries.py.

The pipeline converts country border rings (lists of (lon, lat) pairs) into
normalized 2D polygon data: extraction by region name, area filtering with a
largest-polygon fallback, an optional geographic exclusion for the "usa"
target, equirectangular projection, bounds computation with aspect-ratio
padding, rescaling into a padded unit square, vertex-budgeted simplification,
and area/centroid analysis.

Python floats are modelled as exact rationals.  A Python ZeroDivisionError is
modelled by Option (locally) and by Except Unit (for a whole pipeline run):
a raised, uncaught exception is the error value.  The cosine factor of the
projection is transcendental, so the pipeline is parametrized by the function
used for it; none of the verified properties depend on its values.
-/

namespace ConvertCountries

/-- A planar point.  Python float coordinate pairs are modelled exactly. -/
abbrev Pt : Type := ℚ × ℚ

/-- RDP simplification tolerance in normalized space (source constant). -/
def RDP_TOLERANCE : ℚ := 3 / 1000

/-- Max vertices per polygon ring before forcing simplification (source constant). -/
def MAX_VERTICES : ℕ := 400

/-- Padding fraction on each side when normalizing to 0-1 (source constant). -/
def PADDING : ℚ := 5 / 100

/-- The fixed 4:3 canvas ratio, 800.0 / 600.0 in the source. -/
def target_ratio : ℚ := 800 / 600

/-- Python round(x, 4): round to four decimal places. -/
def round4 (x : ℚ) : ℚ := ((round (x * 10000) : ℤ) : ℚ) / 10000

/-- Python float division; none models the ZeroDivisionError raised on a
zero divisor. -/
def fdiv (a b : ℚ) : Option ℚ := if b = 0 then none else some (a / b)

/-- One GeoJSON feature: its NAME property together with the exterior rings of
its Polygon or MultiPolygon geometry.  A shapely polygon of this dataset is
hole-free and is modelled by its exterior ring. -/
structure Feature where
  NAME : String
  polys : List (List Pt)
deriving DecidableEq

/-- One entry of MAP_CONFIGS: display name, source country names, the
continental_only flag (absent means false) and the optional minimum polygon
area threshold. -/
structure Config where
  name : String
  countries : List String
  continental_only : Bool
  min_polygon_area_deg2 : Option ℚ
deriving DecidableEq

/-- The value returned by process_country on success: display name, the final
normalized polygons, and the centroid of the main polygon.  A none centroid
models the NaN centroid shapely yields for a degenerate polygon. -/
structure MapResult where
  name : String
  polygons : List (List Pt)
  centroid : Option Pt
deriving DecidableEq

/-- get_country_polygons: the rings of the first feature whose NAME matches,
or the empty list when no feature matches. -/
def get_country_polygons (features : List Feature) (country_name : String) :
    List (List Pt) :=
  match features.find? (fun f => f.NAME = country_name) with
  | some f => f.polys
  | none => []

/-- The extraction loop of process_country: for each configured country name,
append its rings; a name resolving to no rings is recorded as a warning and
processing continues with the remaining names. -/
def extract_all (features : List Feature) : List String → List (List Pt) × List String
  | [] => ([], [])
  | n :: rest =>
    let polys := get_country_polygons features n
    let r := extract_all features rest
    if polys = [] then (r.1, n :: r.2) else (polys ++ r.1, r.2)

/-- equirectangular_project, parametrized by the cosine-of-radians factor. -/
def equirectangular_project (lon lat center_lat : ℚ) (cosRad : ℚ → ℚ) : Pt :=
  (lon * cosRad center_lat, -lat)

/-- project_polygons: project every coordinate of every ring. -/
def project_polygons (polygons : List (List Pt)) (center_lat : ℚ)
    (cosRad : ℚ → ℚ) : List (List Pt) :=
  polygons.map (fun poly =>
    poly.map (fun q => equirectangular_project q.1 q.2 center_lat cosRad))

/-- One step of the bounding-box fold of compute_bounds. -/
def bounds_step (acc : ℚ × ℚ × ℚ × ℚ) (q : Pt) : ℚ × ℚ × ℚ × ℚ :=
  (min acc.1 q.1, min acc.2.1 q.2, max acc.2.2.1 q.1, max acc.2.2.2 q.2)

/-- compute_bounds: (min_x, min_y, max_x, max_y) over all coordinates.  The
source starts from infinities and folds min/max over every point; over a
nonempty point list this equals folding from the first point, and the pipeline
only ever reaches this call with a nonempty point list. -/
def compute_bounds (all_coords : List (List Pt)) : Option (ℚ × ℚ × ℚ × ℚ) :=
  match all_coords.flatten with
  | [] => none
  | q :: qs => some (qs.foldl bounds_step (q.1, q.2, q.1, q.2))

/-- The guarded width/height ratio: range_x / range_y if range_y > 0 else 1.0. -/
def current_ratio (range_x range_y : ℚ) : ℚ :=
  if 0 < range_y then range_x / range_y else 1

/-- The aspect-ratio correction of process_country: pad the shorter dimension
so the box matches 4:3.  Returns (min_x, min_y, range_x, range_y) after
padding. -/
def adjust_bounds (min_x min_y max_x max_y : ℚ) : ℚ × ℚ × ℚ × ℚ :=
  let range_x := max_x - min_x
  let range_y := max_y - min_y
  if target_ratio < current_ratio range_x range_y then
    let new_range_y := range_x / target_ratio
    let pad := (new_range_y - range_y) / 2
    (min_x, min_y - pad, range_x, new_range_y)
  else
    let new_range_x := range_y * target_ratio
    let pad := (new_range_x - range_x) / 2
    (min_x - pad, min_y, new_range_x, range_y)

/-- normalize_coords: rescale into the padded unit square, rounding to four
decimals; none models the ZeroDivisionError raised on a zero range. -/
def normalize_coords : List Pt → ℚ → ℚ → ℚ → ℚ → ℚ → Option (List Pt)
  | [], _, _, _, _, _ => some []
  | q :: rest, min_x, min_y, range_x, range_y, padding => do
    let qx ← fdiv (q.1 - min_x) range_x
    let qy ← fdiv (q.2 - min_y) range_y
    let tail ← normalize_coords rest min_x min_y range_x range_y padding
    some ((round4 (padding + qx * (1 - 2 * padding)),
           round4 (padding + qy * (1 - 2 * padding))) :: tail)

/-- Squared distance from p to the line through a and b (to the point a when
a = b), used by the Douglas-Peucker recursion. -/
def distSq (a b p : Pt) : ℚ :=
  if a = b then (p.1 - a.1) ^ 2 + (p.2 - a.2) ^ 2
  else
    ((b.1 - a.1) * (p.2 - a.2) - (b.2 - a.2) * (p.1 - a.1)) ^ 2 /
      ((b.1 - a.1) ^ 2 + (b.2 - a.2) ^ 2)

/-- Index (into the whole point list) and value of the maximal squared
distance among the interior points; the first maximum wins. -/
def maxDistAux (a b : Pt) : List Pt → ℕ → ℕ × ℚ → ℕ × ℚ
  | [], _, best => best
  | p :: ps, i, best =>
    let d := distSq a b p
    if best.2 < d then maxDistAux a b ps (i + 1) (i, d)
    else maxDistAux a b ps (i + 1) best

/-- Modelled from the spec: the Douglas-Peucker family simplification that
shapely simplify performs (shapely itself is outside this repository).  Keep
the two anchor points; if every interior point is within tolerance of the
anchor line, drop them all, otherwise split at the farthest point and recurse.
The fuel argument only bounds the recursion depth and is always supplied as
the list length, which the splitting can never exceed. -/
def rdpFuel (tol : ℚ) : ℕ → List Pt → List Pt
  | 0, pts => pts
  | fuel + 1, pts =>
    if pts.length < 3 then pts
    else
      let a := pts.headD (0, 0)
      let b := pts.getLastD (0, 0)
      let best := maxDistAux a b ((pts.drop 1).dropLast) 1 (1, -1)
      if best.2 ≤ tol ^ 2 then [a, b]
      else
        (rdpFuel tol fuel (pts.take (best.1 + 1))).dropLast ++
          rdpFuel tol fuel (pts.drop best.1)

/-- Close a ring by appending the first point when it is not already closed;
shapely Polygon construction does this before simplification. -/
def closeRing (coords : List Pt) : List Pt :=
  match coords with
  | [] => []
  | p :: _ => if coords.getLastD p = p then coords else coords ++ [p]

/-- rdp_simplify: rings of at most three points pass through unchanged,
otherwise the closed ring is simplified; the result is again a closed ring. -/
def rdp_simplify (coords : List Pt) (tolerance : ℚ) : List Pt :=
  if coords.length ≤ 3 then coords
  else
    let closed := closeRing coords
    rdpFuel tolerance closed.length closed

/-- Removal of the closing duplicate vertex when present. -/
def drop_closing_dup (l : List Pt) : List Pt :=
  if 1 < l.length ∧ l.headD (0, 0) = l.getLastD (0, 0) then l.dropLast else l

/-- The per-ring tail of the normalization loop: simplify only when the ring
exceeds the vertex budget, then remove the closing duplicate. -/
def finalize_ring (normed : List Pt) : List Pt :=
  drop_closing_dup
    (if MAX_VERTICES < normed.length then rdp_simplify normed RDP_TOLERANCE
     else normed)

/-- The cross term of one loop iteration of polygon_area. -/
def cross2 (p q : Pt) : ℚ := p.1 * q.2 - q.1 * p.2

/-- The signed shoelace sum of polygon_area: sum over i of
x_i * y_j - x_j * y_i with j = (i + 1) % n. -/
def shoelace_sum (coords : List Pt) : ℚ :=
  ∑ i ∈ Finset.range coords.length,
    cross2 (coords.getD i (0, 0))
      (coords.getD ((i + 1) % coords.length) (0, 0))

/-- polygon_area: absolute shoelace sum, halved. -/
def polygon_area (coords : List Pt) : ℚ := |shoelace_sum coords| / 2

/-- Modelled from the spec: the area-weighted standard polygon centroid that
shapely computes (shapely itself is outside this repository); none models the
empty centroid of a zero-area polygon. -/
def centroid_xy (coords : List Pt) : Option Pt :=
  let a2 := shoelace_sum coords
  if a2 = 0 then none
  else
    let n := coords.length
    let sx := ∑ i ∈ Finset.range n,
      ((coords.getD i (0, 0)).1 + (coords.getD ((i + 1) % n) (0, 0)).1) *
        cross2 (coords.getD i (0, 0)) (coords.getD ((i + 1) % n) (0, 0))
    let sy := ∑ i ∈ Finset.range n,
      ((coords.getD i (0, 0)).2 + (coords.getD ((i + 1) % n) (0, 0)).2) *
        cross2 (coords.getD i (0, 0)) (coords.getD ((i + 1) % n) (0, 0))
    some (sx / (3 * a2), sy / (3 * a2))

/-- compute_centroid: the shapely centroid rounded to four decimals. -/
def compute_centroid (coords : List Pt) : Option Pt :=
  (centroid_xy coords).map (fun c => (round4 c.1, round4 c.2))

/-- Python max(all_polygons, key=area): the first polygon of maximal area. -/
def argmax_area (ps : List (List Pt)) : Option (List Pt) :=
  match ps with
  | [] => none
  | h :: t =>
    some (t.foldl (fun best p =>
      if polygon_area best < polygon_area p then p else best) h)

/-- The area filter of process_country with its fallback: keep polygons of at
least the threshold area; if that keeps nothing, keep the single largest.
The shapely area of a hole-free polygon is the shoelace area of its exterior
ring.  The pipeline only reaches this with a nonempty input (an empty
extraction returns earlier), so the fallback always finds a largest. -/
def filter_polys (all_polygons : List (List Pt)) (min_area : ℚ) :
    List (List Pt) :=
  let filtered := all_polygons.filter (fun p => min_area ≤ polygon_area p)
  if filtered = [] then (argmax_area all_polygons).toList else filtered

/-- The continental-US exclusion test on a polygon centroid: longitude west of
-130 or latitude below 25.  A polygon with no centroid is kept, matching the
always-false NaN comparisons of Python. -/
def is_excluded (poly : List Pt) : Bool :=
  match centroid_xy poly with
  | none => false
  | some c => decide (c.1 < -130) || decide (c.2 < 25)

/-- The exclusion step of process_country, applied only for the "usa" map id
with the continental_only flag set. -/
def apply_exclusion (map_id : String) (config : Config)
    (filtered : List (List Pt)) : List (List Pt) :=
  if map_id = "usa" ∧ config.continental_only then
    filtered.filter (fun p => !(is_excluded p))
  else filtered

/-- The analyzer tail of process_country: Python max(areas) then
areas.index(max(areas)) selects the first polygon of maximal area, whose
rounded centroid is reported. -/
def analyzer (polys : List (List Pt)) : Option Pt :=
  match polys.map polygon_area with
  | [] => none
  | a :: rest =>
    let m := rest.foldl max a
    let idx := (a :: rest).findIdx (fun x => x = m)
    compute_centroid (polys.getD idx [])

/-- The bounds-and-normalization phase of process_country over the projected
rings: compute bounds, pad to aspect ratio, rescale every ring, simplify and
deduplicate each, and keep rings of at least three vertices.  none models a
ZeroDivisionError. -/
def normalize_phase (projected : List (List Pt)) : Option (List (List Pt)) :=
  match compute_bounds projected with
  | none => none
  | some bounds =>
    match adjust_bounds bounds.1 bounds.2.1 bounds.2.2.1 bounds.2.2.2 with
    | (min_x, min_y, range_x, range_y) =>
      match projected.mapM (fun coords =>
        (normalize_coords coords min_x min_y range_x range_y PADDING).map
          finalize_ring) with
      | none => none
      | some rings => some (rings.filter (fun r => 3 ≤ r.length))

/-- process_country: the whole pipeline for one map target.  Except.error
models an uncaught Python exception aborting the run; ok none models the
clean early return when no polygons were extracted. -/
def process_country (cosRad : ℚ → ℚ) (features : List Feature)
    (map_id : String) (config : Config) : Except Unit (Option MapResult) := do
  let ext := extract_all features config.countries
  if ext.1 = [] then return none
  let min_area := (config.min_polygon_area_deg2).getD 1
  let filtered0 := filter_polys ext.1 min_area
  let filtered := apply_exclusion map_id config filtered0
  let all_lats := filtered.flatMap (fun poly => poly.map (fun q => q.2))
  if all_lats = [] then throw ()
  let center_lat := all_lats.sum / (all_lats.length : ℚ)
  let projected := project_polygons filtered center_lat cosRad
  match normalize_phase projected with
  | none => throw ()
  | some normalized_polys =>
    if normalized_polys = [] then throw ()
    let centroid := analyzer normalized_polys
    return some ⟨config.name, normalized_polys, centroid⟩

/-- The loop of main over MAP_CONFIGS: targets producing none are omitted
from the results, an uncaught exception aborts the whole run. -/
def main_results (cosRad : ℚ → ℚ) (features : List Feature) :
    List (String × Config) → Except Unit (List (String × MapResult))
  | [] => pure []
  | (map_id, config) :: rest => do
    let r ← process_country cosRad features map_id config
    let rs ← main_results cosRad features rest
    match r with
    | none => pure rs
    | some res => pure ((map_id, res) :: rs)

/-- A ring of 1000 collinear-ish points: 500 points along the lower edge of a
thin sliver and 500 points back along its upper edge, of height 1/100. -/
def collinearIshRing : List Pt :=
  ((List.range 500).map (fun i => ((i : ℚ) / 500, 0))) ++
    ((List.range 500).map (fun i => (((499 - i : ℕ) : ℚ) / 500, 1 / 100)))

/-- A single projected ring whose points all lie at the same height, giving a
zero-height bounding box. -/
def flatRing : List Pt := [(0, 0), (1, 0), (2, 0)]

/-- A feature whose only polygon is a triangle with centroid longitude -138,
west of the -130 cutoff, and shoelace area 8. -/
def alaskaFeature : Feature :=
  ⟨"United States of America", [[(-140, 40), (-136, 40), (-138, 44)]]⟩

/-- The usa map target configuration. -/
def usaConfig : Config := ⟨"United States", ["United States of America"], true, some 2⟩

end ConvertCountries

attribute [local semireducible] Rat.mul Rat.inv Rat.add Rat.sub

namespace ConvertCountries

/-- The first maximum is kept by the max-by fold of Python max(list, key). -/
theorem foldl_pick_mem {α : Type} (f : α → ℚ) (t : List α) :
    ∀ a : α, t.foldl (fun best p => if f best < f p then p else best) a ∈ a :: t := by
  induction t with
  | nil => intro a; simp
  | cons b t ih =>
    intro a
    rw [List.foldl_cons]
    by_cases h : f a < f b
    · rw [if_pos h]
      exact List.mem_cons_of_mem a (ih b)
    · rw [if_neg h]
      rcases List.mem_cons.mp (ih a) with h3 | h3
      · rw [h3]; exact List.mem_cons_self a (b :: t)
      · exact List.mem_cons_of_mem a (List.mem_cons_of_mem b h3)

/-- The max-by fold dominates every element it has seen. -/
theorem foldl_pick_le {α : Type} (f : α → ℚ) (t : List α) :
    ∀ a x : α, x ∈ a :: t →
      f x ≤ f (t.foldl (fun best p => if f best < f p then p else best) a) := by
  induction t with
  | nil =>
    intro a x hx
    rw [List.mem_singleton] at hx
    rw [hx, List.foldl_nil]
  | cons b t ih =>
    intro a x hx
    rw [List.foldl_cons]
    have hstep_a : f a ≤ f (if f a < f b then b else a) := by
      by_cases h : f a < f b
      · rw [if_pos h]; exact le_of_lt h
      · rw [if_neg h]
    have hstep_b : f b ≤ f (if f a < f b then b else a) := by
      by_cases h : f a < f b
      · rw [if_pos h]
      · rw [if_neg h]; exact not_lt.mp h
    rcases List.mem_cons.mp hx with h | h
    · rw [h]
      exact le_trans hstep_a (ih _ _ (List.mem_cons_self _ _))
    · rcases List.mem_cons.mp h with h2 | h2
      · rw [h2]
        exact le_trans hstep_b (ih _ _ (List.mem_cons_self _ _))
      · exact ih _ x (List.mem_cons_of_mem _ h2)

/-- C1: the ratio guard treats a zero-height bounding box as ratio 1.0, but
normalization does not complete: on a zero-height box the pad-width branch
sets the padded width to range_y * (4/3) = 0 and the final rescale of the
coordinates divides by zero (the none outcome models the uncaught
ZeroDivisionError).  This contradicts the requirement that no
degenerate-geometry input surfaces an unhandled fault. -/
theorem c1_zero_height_fault :
    current_ratio (2 - 0) (0 - 0) = 1 ∧ normalize_phase [flatRing] = none := by
  constructor
  · decide
  · decide

set_option maxRecDepth 40000 in
/-- C3: the simplifier is invoked on a normalized ring exactly when it has
more than 400 vertices, and the 1000-point collinear-ish ring comes out of
the simplifier with between 3 and 400 vertices. -/
theorem c3_simplifier_budget :
    (∀ normed : List Pt, normed.length ≤ MAX_VERTICES →
      finalize_ring normed = drop_closing_dup normed) ∧
    (∀ normed : List Pt, MAX_VERTICES < normed.length →
      finalize_ring normed = drop_closing_dup (rdp_simplify normed RDP_TOLERANCE)) ∧
    collinearIshRing.length = 1000 ∧
    3 ≤ (rdp_simplify collinearIshRing RDP_TOLERANCE).length ∧
    (rdp_simplify collinearIshRing RDP_TOLERANCE).length ≤ MAX_VERTICES := by
  have h5 : (rdp_simplify collinearIshRing RDP_TOLERANCE).length = 5 := by decide
  refine ⟨?_, ?_, by decide, by rw [h5]; decide, by rw [h5]; decide⟩
  · intro normed h
    unfold finalize_ring
    rw [if_neg (Nat.not_lt.mpr h)]
  · intro normed h
    unfold finalize_ring
    rw [if_pos h]

/-- C3 witness: a three-point ring is below the vertex budget, so the
simplifier is not invoked on it. -/
theorem c3_simplifier_budget_witness :
    finalize_ring [(0, 0), (1, 0), (0, 1)] =
      drop_closing_dup [(0, 0), (1, 0), (0, 1)] :=
  c3_simplifier_budget.1 [(0, 0), (1, 0), (0, 1)] (by decide)

/-- C2: the area filter keeps exactly the polygons of at least the threshold
area, in input order; when that keeps nothing it falls back to a single
polygon of maximal area from the input, so a nonempty input never yields an
empty result. -/
theorem c2_area_filter_fallback (ps : List (List Pt)) (min_area : ℚ)
    (h : ps ≠ []) :
    filter_polys ps min_area ≠ [] ∧
    (ps.filter (fun p => min_area ≤ polygon_area p) ≠ [] →
      filter_polys ps min_area = ps.filter (fun p => min_area ≤ polygon_area p)) ∧
    (ps.filter (fun p => min_area ≤ polygon_area p) = [] →
      ∃ m, filter_polys ps min_area = [m] ∧ m ∈ ps ∧
        ∀ q ∈ ps, polygon_area q ≤ polygon_area m) := by
  obtain ⟨p0, t, rfl⟩ := List.exists_cons_of_ne_nil h
  refine ⟨?_, ?_, ?_⟩
  · by_cases hf : (p0 :: t).filter (fun p => min_area ≤ polygon_area p) = []
    · simp [filter_polys, hf, argmax_area]
    · simp [filter_polys, hf]
  · intro h2
    simp [filter_polys, h2]
  · intro h2
    refine ⟨t.foldl (fun best p =>
      if polygon_area best < polygon_area p then p else best) p0, ?_, ?_, ?_⟩
    · simp [filter_polys, h2, argmax_area]
    · exact foldl_pick_mem polygon_area t p0
    · intro q hq
      exact foldl_pick_le polygon_area t p0 q hq

/-- C2 witness: a concrete two-triangle input, one triangle below the
threshold and one above, goes through the filter as the claim states. -/
theorem c2_area_filter_fallback_witness :
    filter_polys [[(0, 0), (1, 0), (0, 1)], [(0, 0), (4, 0), (0, 4)]] 2 ≠ [] ∧
    ([[(0, 0), (1, 0), (0, 1)], [(0, 0), (4, 0), (0, 4)]].filter
        (fun p => (2 : ℚ) ≤ polygon_area p) ≠ [] →
      filter_polys [[(0, 0), (1, 0), (0, 1)], [(0, 0), (4, 0), (0, 4)]] 2 =
        [[(0, 0), (1, 0), (0, 1)], [(0, 0), (4, 0), (0, 4)]].filter
          (fun p => (2 : ℚ) ≤ polygon_area p)) ∧
    ([[(0, 0), (1, 0), (0, 1)], [(0, 0), (4, 0), (0, 4)]].filter
        (fun p => (2 : ℚ) ≤ polygon_area p) = [] →
      ∃ m, filter_polys [[(0, 0), (1, 0), (0, 1)], [(0, 0), (4, 0), (0, 4)]] 2 =
          [m] ∧ m ∈ [[(0, 0), (1, 0), (0, 1)], [(0, 0), (4, 0), (0, 4)]] ∧
        ∀ q ∈ [[(0, 0), (1, 0), (0, 1)], [(0, 0), (4, 0), (0, 4)]],
          polygon_area q ≤ polygon_area m) :=
  c2_area_filter_fallback [[(0, 0), (1, 0), (0, 1)], [(0, 0), (4, 0), (0, 4)]] 2
    (by decide)

/-- A name matching no feature yields the empty ring list. -/
theorem get_country_polygons_absent (features : List Feature) (n : String)
    (h : ∀ f ∈ features, f.NAME ≠ n) : get_country_polygons features n = [] := by
  have hfind : features.find? (fun f => f.NAME = n) = none := by
    rw [List.find?_eq_none]
    intro f hf
    simpa using h f hf
  unfold get_country_polygons
  rw [hfind]

/-- A name extracting no rings contributes nothing to the extracted polygons,
is recorded as a warning, and the remaining names are still processed. -/
theorem extract_all_skip (features : List Feature) (n : String)
    (hget : get_country_polygons features n = []) :
    ∀ ns1 ns2 : List String,
      (extract_all features (ns1 ++ n :: ns2)).1 =
        (extract_all features (ns1 ++ ns2)).1 ∧
      n ∈ (extract_all features (ns1 ++ n :: ns2)).2 := by
  intro ns1
  induction ns1 with
  | nil =>
    intro ns2
    constructor
    · simp [extract_all, hget]
    · simp [extract_all, hget]
  | cons m ns1 ih =>
    intro ns2
    by_cases hm : get_country_polygons features m = []
    · constructor
      · simp only [List.cons_append, extract_all, hm, if_pos rfl]
        exact (ih ns2).1
      · simp only [List.cons_append, extract_all, hm, if_pos rfl]
        exact List.mem_cons_of_mem m (ih ns2).2
    · constructor
      · simp only [List.cons_append, extract_all, if_neg hm]
        exact congrArg (fun l => get_country_polygons features m ++ l) (ih ns2).1
      · simp only [List.cons_append, extract_all, if_neg hm]
        exact (ih ns2).2

/-- A target whose extraction finds no polygons returns cleanly with none. -/
theorem process_country_empty (cosRad : ℚ → ℚ) (features : List Feature)
    (map_id : String) (config : Config)
    (h : (extract_all features config.countries).1 = []) :
    process_country cosRad features map_id config = Except.ok none := by
  simp [process_country, h]
  rfl

/-- A target returning none is omitted from the collected results, and the
remaining targets produce what they would have produced without it. -/
theorem main_results_skip (cosRad : ℚ → ℚ) (features : List Feature)
    (map_id : String) (config : Config)
    (h : process_country cosRad features map_id config = Except.ok none) :
    ∀ l1 l2 : List (String × Config),
      main_results cosRad features (l1 ++ (map_id, config) :: l2) =
        main_results cosRad features (l1 ++ l2) := by
  intro l1
  induction l1 with
  | nil =>
    intro l2
    simp only [List.nil_append, main_results, h]
    exact bind_pure (main_results cosRad features l2)
  | cons p l1 ih =>
    intro l2
    obtain ⟨pid, pcfg⟩ := p
    simp only [List.cons_append, main_results, List.append_eq, ih]

/-- C7: a source region name matching no feature extracts nothing, is
reported as a warning, and the remaining regions of the target are still
processed; a target that resolves to zero polygons across all its regions
returns none and is omitted from the collected results, while every other
target still produces what it would have produced without it. -/
theorem c7_missing_region_nonfatal :
    (∀ (features : List Feature) (n : String),
      (∀ f ∈ features, f.NAME ≠ n) → get_country_polygons features n = []) ∧
    (∀ (features : List Feature) (ns1 ns2 : List String) (n : String),
      get_country_polygons features n = [] →
        (extract_all features (ns1 ++ n :: ns2)).1 =
          (extract_all features (ns1 ++ ns2)).1 ∧
        n ∈ (extract_all features (ns1 ++ n :: ns2)).2) ∧
    (∀ (cosRad : ℚ → ℚ) (features : List Feature) (map_id : String)
      (config : Config),
      (extract_all features config.countries).1 = [] →
        process_country cosRad features map_id config = Except.ok none) ∧
    (∀ (cosRad : ℚ → ℚ) (features : List Feature)
      (l1 l2 : List (String × Config)) (map_id : String) (config : Config),
      (extract_all features config.countries).1 = [] →
        main_results cosRad features (l1 ++ (map_id, config) :: l2) =
          main_results cosRad features (l1 ++ l2)) := by
  refine ⟨get_country_polygons_absent, ?_, process_country_empty, ?_⟩
  · intro features ns1 ns2 n hget
    exact extract_all_skip features n hget ns1 ns2
  · intro cosRad features l1 l2 map_id config h
    exact main_results_skip cosRad features map_id config
      (process_country_empty cosRad features map_id config h) l1 l2

/-- The exclusion step leaves any target other than "usa" unchanged. -/
theorem apply_exclusion_other (map_id : String) (config : Config)
    (ps : List (List Pt)) (h : map_id ≠ "usa") :
    apply_exclusion map_id config ps = ps := by
  unfold apply_exclusion
  rw [if_neg]
  exact fun hc => h hc.1

/-- C9: the centroid-based geographic exclusion runs only for the map id
"usa": on any other map id the exclusion step is the identity, and the whole
pipeline gives the same result whatever the continental_only flag; for "usa"
with the flag set it filters by the centroid test. -/
theorem c9_exclusion_only_usa :
    (∀ (map_id : String) (config : Config) (ps : List (List Pt)),
      map_id ≠ "usa" → apply_exclusion map_id config ps = ps) ∧
    (∀ (config : Config) (ps : List (List Pt)), config.continental_only = true →
      apply_exclusion "usa" config ps = ps.filter (fun p => !(is_excluded p))) ∧
    (∀ (cosRad : ℚ → ℚ) (features : List Feature) (map_id : String)
      (nm : String) (cs : List String) (ma : Option ℚ) (b1 b2 : Bool),
      map_id ≠ "usa" →
        process_country cosRad features map_id ⟨nm, cs, b1, ma⟩ =
          process_country cosRad features map_id ⟨nm, cs, b2, ma⟩) := by
  refine ⟨apply_exclusion_other, ?_, ?_⟩
  · intro config ps h
    unfold apply_exclusion
    rw [if_pos ⟨rfl, h⟩]
  · intro cosRad features map_id nm cs ma b1 b2 h
    simp only [process_country,
      apply_exclusion_other map_id ⟨nm, cs, b1, ma⟩ _ h,
      apply_exclusion_other map_id ⟨nm, cs, b2, ma⟩ _ h]

/-- Components of the bounding-box fold: the fold only shrinks the mins,
grows the maxes, and bounds every point it folds over. -/
theorem bounds_foldl_spec (ps : List Pt) :
    ∀ acc : ℚ × ℚ × ℚ × ℚ,
      ((ps.foldl bounds_step acc).1 ≤ acc.1 ∧
       (ps.foldl bounds_step acc).2.1 ≤ acc.2.1 ∧
       acc.2.2.1 ≤ (ps.foldl bounds_step acc).2.2.1 ∧
       acc.2.2.2 ≤ (ps.foldl bounds_step acc).2.2.2) ∧
      ∀ q ∈ ps,
        (ps.foldl bounds_step acc).1 ≤ q.1 ∧
        (ps.foldl bounds_step acc).2.1 ≤ q.2 ∧
        q.1 ≤ (ps.foldl bounds_step acc).2.2.1 ∧
        q.2 ≤ (ps.foldl bounds_step acc).2.2.2 := by
  induction ps with
  | nil =>
    intro acc
    exact ⟨⟨le_refl _, le_refl _, le_refl _, le_refl _⟩, by simp⟩
  | cons p ps ih =>
    intro acc
    rw [List.foldl_cons]
    obtain ⟨ha, hb⟩ := ih (bounds_step acc p)
    have hs1 : (bounds_step acc p).1 ≤ acc.1 := min_le_left _ _
    have hs2 : (bounds_step acc p).2.1 ≤ acc.2.1 := min_le_left _ _
    have hs3 : acc.2.2.1 ≤ (bounds_step acc p).2.2.1 := le_max_left _ _
    have hs4 : acc.2.2.2 ≤ (bounds_step acc p).2.2.2 := le_max_left _ _
    have hp1 : (bounds_step acc p).1 ≤ p.1 := min_le_right _ _
    have hp2 : (bounds_step acc p).2.1 ≤ p.2 := min_le_right _ _
    have hp3 : p.1 ≤ (bounds_step acc p).2.2.1 := le_max_right _ _
    have hp4 : p.2 ≤ (bounds_step acc p).2.2.2 := le_max_right _ _
    refine ⟨⟨le_trans ha.1 hs1, le_trans ha.2.1 hs2,
      le_trans hs3 ha.2.2.1, le_trans hs4 ha.2.2.2⟩, ?_⟩
    intro q hq
    rcases List.mem_cons.mp hq with rfl | hq2
    · exact ⟨le_trans ha.1 hp1, le_trans ha.2.1 hp2,
        le_trans hp3 ha.2.2.1, le_trans hp4 ha.2.2.2⟩
    · exact hb q hq2

/-- compute_bounds bounds every coordinate it saw. -/
theorem compute_bounds_mem (all_coords : List (List Pt)) (a b c d : ℚ)
    (h : compute_bounds all_coords = some (a, b, c, d)) :
    ∀ q ∈ all_coords.flatten, a ≤ q.1 ∧ b ≤ q.2 ∧ q.1 ≤ c ∧ q.2 ≤ d := by
  intro q hq
  unfold compute_bounds at h
  cases hfl : all_coords.flatten with
  | nil => rw [hfl] at h; exact absurd h (by simp)
  | cons q0 qs =>
    rw [hfl] at h
    simp only [Option.some.injEq] at h
    have h1 := congrArg Prod.fst h
    have h2 := congrArg (fun t : ℚ × ℚ × ℚ × ℚ => t.2.1) h
    have h3 := congrArg (fun t : ℚ × ℚ × ℚ × ℚ => t.2.2.1) h
    have h4 := congrArg (fun t : ℚ × ℚ × ℚ × ℚ => t.2.2.2) h
    simp only at h1 h2 h3 h4
    obtain ⟨ha, hb⟩ := bounds_foldl_spec qs (q0.1, q0.2, q0.1, q0.2)
    rw [hfl] at hq
    rcases List.mem_cons.mp hq with rfl | hq2
    · exact ⟨h1 ▸ ha.1, h2 ▸ ha.2.1, h3 ▸ ha.2.2.1, h4 ▸ ha.2.2.2⟩
    · obtain ⟨k1, k2, k3, k4⟩ := hb q hq2
      exact ⟨h1 ▸ k1, h2 ▸ k2, h3 ▸ k3, h4 ▸ k4⟩

/-- The padded box of adjust_bounds has positive ranges and contains the
original box. -/
theorem adjust_bounds_box (a b c d mnx mny rx ry : ℚ) (hy : b < d)
    (ht : adjust_bounds a b c d = (mnx, mny, rx, ry)) :
    0 < rx ∧ 0 < ry ∧ mnx ≤ a ∧ c ≤ mnx + rx ∧ mny ≤ b ∧ d ≤ mny + ry := by
  have hdb : (0:ℚ) < d - b := sub_pos.mpr hy
  have htr : (0:ℚ) < target_ratio := by norm_num [target_ratio]
  simp only [adjust_bounds, current_ratio, if_pos hdb] at ht
  by_cases hc : target_ratio < (c - a) / (d - b)
  · rw [if_pos hc] at ht
    simp only [Prod.mk.injEq] at ht
    obtain ⟨h1, h2, h3, h4⟩ := ht
    subst h1; subst h2; subst h3; subst h4
    have hca : (0:ℚ) < c - a := by
      have hr : (0:ℚ) < (c - a) / (d - b) := htr.trans hc
      have := mul_pos hr hdb
      rwa [div_mul_cancel₀ _ (ne_of_gt hdb)] at this
    have hpadnn : d - b ≤ (c - a) / target_ratio := by
      rw [le_div_iff₀ htr]
      have := (lt_div_iff₀ hdb).mp hc
      linarith
    exact ⟨hca, div_pos hca htr, le_refl a, by linarith, by linarith, by linarith⟩
  · rw [if_neg hc] at ht
    simp only [Prod.mk.injEq] at ht
    obtain ⟨h1, h2, h3, h4⟩ := ht
    subst h1; subst h2; subst h3; subst h4
    have hpadnn : c - a ≤ (d - b) * target_ratio := by
      have := (div_le_iff₀ hdb).mp (not_lt.mp hc)
      linarith
    exact ⟨mul_pos hdb htr, hdb, by linarith, by linarith, le_refl b, by linarith⟩

/-- Over Option, mapping a function that always succeeds succeeds with the
pointwise map. -/
theorem mapM_eq_some {α β : Type} (f : α → Option β) (g : α → β) :
    ∀ l : List α, (∀ x ∈ l, f x = some (g x)) → l.mapM f = some (l.map g) := by
  intro l
  induction l with
  | nil => intro _; rfl
  | cons x t ih =>
    intro h
    rw [List.mapM_cons, h x (List.mem_cons_self x t),
      ih (fun y hy => h y (List.mem_cons_of_mem x hy))]
    rfl

/-- The head-with-default of a nonempty list is a member. -/
theorem headD_mem_of_ne_nil (l : List Pt) (d : Pt) (h : l ≠ []) :
    l.headD d ∈ l := by
  cases l with
  | nil => exact absurd rfl h
  | cons x t => simp

/-- The last-with-default of a nonempty list is a member. -/
theorem getLastD_mem_of_ne_nil (l : List Pt) (d : Pt) (h : l ≠ []) :
    l.getLastD d ∈ l := by
  induction l generalizing d with
  | nil => exact absurd rfl h
  | cons x t ih =>
    rw [List.getLastD_cons]
    cases ht : t with
    | nil => simp [ht]
    | cons y t2 =>
      rw [← ht]
      exact List.mem_cons_of_mem x (ih x (by simp [ht]))

/-- The Douglas-Peucker recursion only ever keeps input points. -/
theorem rdpFuel_subset (tol : ℚ) : ∀ (fuel : ℕ) (pts : List Pt),
    rdpFuel tol fuel pts ⊆ pts := by
  intro fuel
  induction fuel with
  | zero => intro pts; exact List.Subset.refl pts
  | succ fuel ih =>
    intro pts
    rw [rdpFuel]
    by_cases h3 : pts.length < 3
    · rw [if_pos h3]
      exact List.Subset.refl pts
    · rw [if_neg h3]
      have hne : pts ≠ [] := by
        intro hnil
        rw [hnil] at h3
        exact h3 (by simp)
      by_cases hb : (maxDistAux (pts.headD (0, 0)) (pts.getLastD (0, 0))
          ((pts.drop 1).dropLast) 1 (1, -1)).2 ≤ tol ^ 2
      · rw [if_pos hb]
        intro q hq
        rcases List.mem_cons.mp hq with rfl | hq2
        · exact headD_mem_of_ne_nil pts (0, 0) hne
        · rw [List.mem_singleton] at hq2
          rw [hq2]
          exact getLastD_mem_of_ne_nil pts (0, 0) hne
      · rw [if_neg hb]
        intro q hq
        rcases List.mem_append.mp hq with h1 | h2
        · exact List.take_subset _ _ (ih _ (List.dropLast_subset _ h1))
        · exact List.drop_subset _ _ (ih _ h2)


/-- Closing a ring adds no new points. -/
theorem closeRing_subset (coords : List Pt) : closeRing coords ⊆ coords := by
  cases coords with
  | nil => exact List.Subset.refl []
  | cons p t =>
    simp only [closeRing]
    by_cases h : (p :: t).getLastD p = p
    · rw [if_pos h]
      exact List.Subset.refl _
    · rw [if_neg h]
      intro q hq
      rcases List.mem_append.mp hq with h1 | h2
      · exact h1
      · rw [List.mem_singleton] at h2
        rw [h2]
        exact List.mem_cons_self p t

/-- rdp_simplify only ever keeps input points. -/
theorem rdp_simplify_subset (coords : List Pt) (tol : ℚ) :
    rdp_simplify coords tol ⊆ coords := by
  unfold rdp_simplify
  by_cases h : coords.length ≤ 3
  · rw [if_pos h]
    exact List.Subset.refl coords
  · rw [if_neg h]
    intro q hq
    exact closeRing_subset coords (rdpFuel_subset tol _ _ hq)

/-- The per-ring simplify-and-deduplicate step only ever keeps input points. -/
theorem finalize_ring_subset (normed : List Pt) : finalize_ring normed ⊆ normed := by
  unfold finalize_ring
  have hmid : (if MAX_VERTICES < normed.length then
      rdp_simplify normed RDP_TOLERANCE else normed) ⊆ normed := by
    by_cases h : MAX_VERTICES < normed.length
    · rw [if_pos h]
      exact rdp_simplify_subset normed RDP_TOLERANCE
    · rw [if_neg h]
      exact List.Subset.refl normed
  intro q hq
  apply hmid
  unfold drop_closing_dup at hq
  by_cases hd : 1 < (if MAX_VERTICES < normed.length then
      rdp_simplify normed RDP_TOLERANCE else normed).length ∧
      (if MAX_VERTICES < normed.length then
        rdp_simplify normed RDP_TOLERANCE else normed).headD (0, 0) =
      (if MAX_VERTICES < normed.length then
        rdp_simplify normed RDP_TOLERANCE else normed).getLastD (0, 0)
  · rw [if_pos hd] at hq
    exact List.dropLast_subset _ hq
  · rw [if_neg hd] at hq
    exact hq


/-- With nonzero ranges, normalize_coords succeeds and is exactly the linear
rescale by the box followed by rounding. -/
theorem normalize_coords_some (coords : List Pt)
    (min_x min_y range_x range_y padding : ℚ)
    (hx : range_x ≠ 0) (hy : range_y ≠ 0) :
    normalize_coords coords min_x min_y range_x range_y padding =
      some (coords.map (fun q =>
        (round4 (padding + (q.1 - min_x) / range_x * (1 - 2 * padding)),
         round4 (padding + (q.2 - min_y) / range_y * (1 - 2 * padding))))) := by
  induction coords with
  | nil => rfl
  | cons q rest ih =>
    simp [normalize_coords, fdiv, hx, hy, ih]

/-- Under the hypotheses of a successful bounds computation and nonzero
padded ranges, the normalization phase evaluates to the mapped, finalized
and length-filtered rings. -/
theorem normalize_phase_eq (projected : List (List Pt))
    (a b c d mnx mny rx ry : ℚ)
    (hb : compute_bounds projected = some (a, b, c, d))
    (hadj : adjust_bounds a b c d = (mnx, mny, rx, ry))
    (hrx : rx ≠ 0) (hry : ry ≠ 0) :
    normalize_phase projected = some
      ((projected.map (fun coords => finalize_ring (coords.map (fun q =>
        (round4 (PADDING + (q.1 - mnx) / rx * (1 - 2 * PADDING)),
         round4 (PADDING + (q.2 - mny) / ry * (1 - 2 * PADDING))))))).filter
        (fun r => 3 ≤ r.length)) := by
  have hmap : projected.mapM (fun coords =>
      (normalize_coords coords mnx mny rx ry PADDING).map finalize_ring) =
      some (projected.map (fun coords => finalize_ring (coords.map (fun q =>
        (round4 (PADDING + (q.1 - mnx) / rx * (1 - 2 * PADDING)),
         round4 (PADDING + (q.2 - mny) / ry * (1 - 2 * PADDING))))))) := by
    apply mapM_eq_some
    intro coords _
    rw [normalize_coords_some coords mnx mny rx ry PADDING hrx hry]
    rfl
  simp only [normalize_phase, hb, hadj, hmap]


/-- Rounding to four decimals moves a value by at most 1/20000. -/
theorem round4_close (x : ℚ) : |round4 x - x| ≤ 1 / 20000 := by
  have h := abs_sub_round (x * 10000)
  rw [abs_sub_comm] at h
  rw [round4]
  have heq : (round (x * 10000) : ℚ) / 10000 - x =
      ((round (x * 10000) : ℚ) - x * 10000) / 10000 := by ring
  rw [heq, abs_div, abs_of_pos (by norm_num : (0:ℚ) < 10000)]
  calc |(round (x * 10000) : ℚ) - x * 10000| / 10000
      ≤ (1 / 2) / 10000 := by
        exact (div_le_div_iff_of_pos_right (by norm_num)).mpr h
    _ = 1 / 20000 := by norm_num

/-- Bounds survive rounding to four decimals up to 1/20000. -/
theorem round4_bounds {lo hi x : ℚ} (h1 : lo ≤ x) (h2 : x ≤ hi) :
    lo - 1 / 20000 ≤ round4 x ∧ round4 x ≤ hi + 1 / 20000 := by
  have h := abs_le.mp (round4_close x)
  exact ⟨by linarith [h.1, h.2], by linarith [h.1, h.2]⟩

/-- C5: with a box of positive height, the branch with ratio above 4:3 keeps
the width and pads the height by equal amounts above and below, the other
branch keeps the height and pads the width by equal amounts on both sides,
the padded box has ratio exactly 4:3 and positive ranges, and every
coordinate is then rescaled linearly by the padded box (into the padded unit
square) and rounded. -/
theorem c5_aspect_padding (a b c d mnx mny rx ry : ℚ) (hy : b < d)
    (ht : adjust_bounds a b c d = (mnx, mny, rx, ry)) :
    rx = target_ratio * ry ∧ 0 < rx ∧ 0 < ry ∧
    (target_ratio < (c - a) / (d - b) →
      mnx = a ∧ rx = c - a ∧ 0 ≤ b - mny ∧ b - mny = (mny + ry) - d) ∧
    (¬ target_ratio < (c - a) / (d - b) →
      mny = b ∧ ry = d - b ∧ 0 ≤ a - mnx ∧ a - mnx = (mnx + rx) - c) ∧
    (∀ coords : List Pt,
      normalize_coords coords mnx mny rx ry PADDING =
        some (coords.map (fun q =>
          (round4 (PADDING + (q.1 - mnx) / rx * (1 - 2 * PADDING)),
           round4 (PADDING + (q.2 - mny) / ry * (1 - 2 * PADDING)))))) := by
  have hdb : (0:ℚ) < d - b := sub_pos.mpr hy
  have htr : (0:ℚ) < target_ratio := by norm_num [target_ratio]
  simp only [adjust_bounds, current_ratio, if_pos hdb] at ht
  by_cases hc : target_ratio < (c - a) / (d - b)
  · rw [if_pos hc] at ht
    simp only [Prod.mk.injEq] at ht
    obtain ⟨h1, h2, h3, h4⟩ := ht
    subst h1; subst h2; subst h3; subst h4
    have hca : (0:ℚ) < c - a := by
      have hr : (0:ℚ) < (c - a) / (d - b) := htr.trans hc
      have := mul_pos hr hdb
      rwa [div_mul_cancel₀ _ (ne_of_gt hdb)] at this
    have hpadnn : d - b ≤ (c - a) / target_ratio := by
      rw [le_div_iff₀ htr]
      have := (lt_div_iff₀ hdb).mp hc
      linarith
    refine ⟨?_, hca, ?_, ?_, ?_, ?_⟩
    · rw [mul_comm, div_mul_cancel₀ _ (ne_of_gt htr)]
    · exact div_pos hca htr
    · intro _
      exact ⟨rfl, rfl, by linarith, by ring⟩
    · intro h2
      exact absurd hc h2
    · intro coords
      exact normalize_coords_some coords _ _ _ _ _ (ne_of_gt hca)
        (ne_of_gt (div_pos hca htr))
  · rw [if_neg hc] at ht
    simp only [Prod.mk.injEq] at ht
    obtain ⟨h1, h2, h3, h4⟩ := ht
    subst h1; subst h2; subst h3; subst h4
    have hrx : (0:ℚ) < (d - b) * target_ratio := mul_pos hdb htr
    have hpadnn : c - a ≤ (d - b) * target_ratio := by
      have := (div_le_iff₀ hdb).mp (not_lt.mp hc)
      linarith
    refine ⟨by ring, hrx, hdb, ?_, ?_, ?_⟩
    · intro h2
      exact absurd h2 hc
    · intro _
      exact ⟨rfl, rfl, by linarith, by ring⟩
    · intro coords
      exact normalize_coords_some coords _ _ _ _ _ (ne_of_gt hrx) (ne_of_gt hdb)

/-- C5 witness: the unit-square box is taller than 4:3, so its width is
padded; the theorem is instantiated at the box (0,0)-(1,1). -/
theorem c5_aspect_padding_witness :
    (4 / 3 : ℚ) = target_ratio * 1 ∧ (0:ℚ) < 4 / 3 ∧ (0:ℚ) < 1 ∧
    (target_ratio < (1 - 0) / (1 - 0) →
      (-1 / 6 : ℚ) = 0 ∧ (4 / 3 : ℚ) = 1 - 0 ∧ (0:ℚ) ≤ 0 - 0 ∧
        (0 : ℚ) - 0 = (0 + 1) - 1) ∧
    (¬ target_ratio < (1 - 0) / (1 - 0) →
      (0:ℚ) = 0 ∧ (1:ℚ) = 1 - 0 ∧ (0:ℚ) ≤ 0 - -1 / 6 ∧
        (0:ℚ) - -1 / 6 = (-1 / 6 + 4 / 3) - 1) ∧
    (∀ coords : List Pt,
      normalize_coords coords (-1 / 6) 0 (4 / 3) 1 PADDING =
        some (coords.map (fun q =>
          (round4 (PADDING + (q.1 - -1 / 6) / (4 / 3) * (1 - 2 * PADDING)),
           round4 (PADDING + (q.2 - 0) / 1 * (1 - 2 * PADDING)))))) :=
  c5_aspect_padding 0 0 1 1 (-1 / 6) 0 (4 / 3) 1 (by norm_num) (by
    simp only [adjust_bounds, current_ratio, target_ratio]
    norm_num)

/-- C4: under a nondegenerate bounding box, the normalization phase succeeds
and every polygon it emits has at least three vertices with every coordinate
inside the padded frame up to four-decimal rounding. -/
theorem c4_processed_polygon_invariants (projected : List (List Pt))
    (a b c d : ℚ) (hb : compute_bounds projected = some (a, b, c, d))
    (hy : b < d) :
    ∃ polys, normalize_phase projected = some polys ∧
      ∀ p ∈ polys, 3 ≤ p.length ∧
        ∀ q ∈ p,
          PADDING - 1 / 20000 ≤ q.1 ∧ q.1 ≤ 1 - PADDING + 1 / 20000 ∧
          PADDING - 1 / 20000 ≤ q.2 ∧ q.2 ≤ 1 - PADDING + 1 / 20000 := by
  rcases hadj : adjust_bounds a b c d with ⟨mnx, mny, rx, ry⟩
  obtain ⟨hrx, hry, hxa, hxc, hyb, hyd⟩ :=
    adjust_bounds_box a b c d mnx mny rx ry hy hadj
  refine ⟨_, normalize_phase_eq projected a b c d mnx mny rx ry hb hadj
    (ne_of_gt hrx) (ne_of_gt hry), ?_⟩
  intro p hp
  rw [List.mem_filter] at hp
  obtain ⟨hpmem, hplen⟩ := hp
  refine ⟨by simpa using hplen, ?_⟩
  rw [List.mem_map] at hpmem
  obtain ⟨coords, hcoords, rfl⟩ := hpmem
  intro q hq
  have hq2 := finalize_ring_subset _ hq
  rw [List.mem_map] at hq2
  obtain ⟨q0, hq0, rfl⟩ := hq2
  have hq0f : q0 ∈ projected.flatten :=
    List.mem_flatten.mpr ⟨coords, hcoords, hq0⟩
  obtain ⟨hb1, hb2, hb3, hb4⟩ := compute_bounds_mem projected a b c d hb q0 hq0f
  have husable : (0:ℚ) < 1 - 2 * PADDING := by norm_num [PADDING]
  have hx0 : 0 ≤ (q0.1 - mnx) / rx := div_nonneg (by linarith) (le_of_lt hrx)
  have hx1 : (q0.1 - mnx) / rx ≤ 1 := by
    rw [div_le_one hrx]; linarith
  have hy0 : 0 ≤ (q0.2 - mny) / ry := div_nonneg (by linarith) (le_of_lt hry)
  have hy1 : (q0.2 - mny) / ry ≤ 1 := by
    rw [div_le_one hry]; linarith
  have hxpre1 : PADDING ≤ PADDING + (q0.1 - mnx) / rx * (1 - 2 * PADDING) := by
    nlinarith
  have hxpre2 : PADDING + (q0.1 - mnx) / rx * (1 - 2 * PADDING) ≤ 1 - PADDING := by
    nlinarith
  have hypre1 : PADDING ≤ PADDING + (q0.2 - mny) / ry * (1 - 2 * PADDING) := by
    nlinarith
  have hypre2 : PADDING + (q0.2 - mny) / ry * (1 - 2 * PADDING) ≤ 1 - PADDING := by
    nlinarith
  have hxr := round4_bounds hxpre1 hxpre2
  have hyr := round4_bounds hypre1 hypre2
  exact ⟨hxr.1, hxr.2, hyr.1, hyr.2⟩


/-- C4 witness: the theorem instantiated on one concrete projected ring with
the 4 x 3 bounding box (0,0)-(4,3). -/
theorem c4_processed_polygon_invariants_witness :
    ∃ polys, normalize_phase [[(0, 0), (4, 0), (4, 3), (0, 3)]] = some polys ∧
      ∀ p ∈ polys, 3 ≤ p.length ∧
        ∀ q ∈ p,
          PADDING - 1 / 20000 ≤ q.1 ∧ q.1 ≤ 1 - PADDING + 1 / 20000 ∧
          PADDING - 1 / 20000 ≤ q.2 ∧ q.2 ≤ 1 - PADDING + 1 / 20000 :=
  c4_processed_polygon_invariants [[(0, 0), (4, 0), (4, 3), (0, 3)]] 0 0 4 3
    (by decide) (by norm_num)

/-- C10: with every area-filter survivor excluded by the continental test,
the exclusion step leaves no polygons and the following mean-latitude
computation divides by zero: the run aborts with an uncaught exception
whatever the projection factor, instead of omitting the target cleanly. -/
theorem c10_exclusion_crash (cosRad : ℚ → ℚ) :
    process_country cosRad [alaskaFeature] "usa" usaConfig = Except.error () := rfl

/-- Successor value of a ZMod element. -/
theorem zmod_val_add_one {n : ℕ} [NeZero n] (i : ZMod n) :
    (i + 1).val = (i.val + 1) % n := by
  rw [ZMod.val_add, ZMod.val_one_eq_one_mod]
  conv_rhs => rw [Nat.add_mod, Nat.mod_eq_of_lt (ZMod.val_lt i)]

/-- The indexed shoelace sum over range n, read as a sum over ZMod n. -/
theorem shoelace_sum_zmod (c : List Pt) (m : ℕ) (hm : c.length = m + 1) :
    shoelace_sum c = ∑ i : ZMod (m + 1),
      cross2 (c.getD (i.val) (0, 0))
        (c.getD ((i + 1 : ZMod (m + 1)).val) (0, 0)) := by
  rw [shoelace_sum, hm]
  rw [← Fin.sum_univ_eq_sum_range]
  apply Fintype.sum_equiv (Equiv.refl (Fin (m + 1)) : Fin (m + 1) ≃ ZMod (m + 1))
  intro x
  rw [zmod_val_add_one]
  rfl


/-- Indexing a rotated list, phrased over ZMod. -/
theorem getD_rotate_zmod (c : List Pt) (k m : ℕ) (hm : c.length = m + 1)
    (j : ZMod (m + 1)) :
    (c.rotate k).getD j.val (0, 0) =
      c.getD ((j + (k : ZMod (m + 1))).val) (0, 0) := by
  have hrotlen : (c.rotate k).length = m + 1 := by rw [List.length_rotate, hm]
  have hj : j.val < (c.rotate k).length := by rw [hrotlen]; exact ZMod.val_lt j
  have hjk : (j + (k : ZMod (m + 1))).val < c.length := by
    rw [hm]; exact ZMod.val_lt _
  have hidx : (j.val + k) % c.length = (j + (k : ZMod (m + 1))).val := by
    rw [ZMod.val_add, ZMod.val_natCast, hm]
    conv_lhs => rw [Nat.add_mod, Nat.mod_eq_of_lt (ZMod.val_lt j)]
  rw [List.getD_eq_getElem _ _ hj, List.getD_eq_getElem _ _ hjk]
  have hget := List.get_rotate c k ⟨j.val, hj⟩
  rw [List.get_eq_getElem, List.get_eq_getElem] at hget
  rw [hget]
  simp only [hidx]

/-- The shoelace sum is invariant under rotation of the starting vertex. -/
theorem shoelace_sum_rotate (c : List Pt) (k : ℕ) :
    shoelace_sum (c.rotate k) = shoelace_sum c := by
  cases hn : c.length with
  | zero =>
    rw [List.length_eq_zero.mp hn, List.rotate_nil]
  | succ m =>
    have hrotlen : (c.rotate k).length = m + 1 := by rw [List.length_rotate, hn]
    rw [shoelace_sum_zmod c m hn, shoelace_sum_zmod (c.rotate k) m hrotlen]
    calc ∑ i : ZMod (m + 1),
        cross2 ((c.rotate k).getD i.val (0, 0))
          ((c.rotate k).getD ((i + 1 : ZMod (m + 1)).val) (0, 0))
        = ∑ i : ZMod (m + 1),
            cross2 (c.getD ((i + (k : ZMod (m + 1))).val) (0, 0))
              (c.getD ((i + (k : ZMod (m + 1)) + 1).val) (0, 0)) := by
          apply Finset.sum_congr rfl
          intro i _
          rw [getD_rotate_zmod c k m hn i, getD_rotate_zmod c k m hn (i + 1)]
          rw [add_right_comm]
      _ = ∑ i : ZMod (m + 1),
            cross2 (c.getD (i.val) (0, 0))
              (c.getD ((i + 1 : ZMod (m + 1)).val) (0, 0)) := by
          exact Fintype.sum_equiv (Equiv.addRight (k : ZMod (m + 1)))
            _ _ (fun i => rfl)


/-- The cross term changes sign when its arguments swap. -/
theorem cross2_antisymm (p q : Pt) : cross2 p q = -cross2 q p := by
  simp only [cross2]
  ring

/-- Indexing a reversed list, phrased over ZMod. -/
theorem getD_reverse_zmod (c : List Pt) (m : ℕ) (hm : c.length = m + 1)
    (j : ZMod (m + 1)) :
    c.reverse.getD j.val (0, 0) = c.getD ((-(j + 1)).val) (0, 0) := by
  have hj : j.val < c.reverse.length := by
    rw [List.length_reverse, hm]; exact ZMod.val_lt j
  have hneg : (-(j + 1)).val < c.length := by rw [hm]; exact ZMod.val_lt _
  have hidx : c.length - 1 - j.val = (-(j + 1)).val := by
    rw [ZMod.neg_val]
    by_cases hj0 : j + 1 = 0
    · rw [if_pos hj0]
      have hv : (j.val + 1) % (m + 1) = 0 := by
        rw [← zmod_val_add_one j, hj0, ZMod.val_zero]
      have hd : m + 1 ∣ j.val + 1 := Nat.dvd_of_mod_eq_zero hv
      have hle : m + 1 ≤ j.val + 1 := Nat.le_of_dvd (Nat.succ_pos _) hd
      have hlt := ZMod.val_lt j
      omega
    · rw [if_neg hj0]
      have hlt : j.val + 1 < m + 1 := by
        rcases Nat.lt_or_ge (j.val + 1) (m + 1) with h | h
        · exact h
        · exfalso
          apply hj0
          have hlt2 := ZMod.val_lt j
          have hv : j.val = m := by omega
          have : (j + 1).val = 0 := by
            rw [zmod_val_add_one, hv, Nat.mod_self]
          exact (ZMod.val_eq_zero _).mp this
      rw [zmod_val_add_one, Nat.mod_eq_of_lt hlt, hm]
      have hlt2 := ZMod.val_lt j
      omega
  rw [List.getD_eq_getElem _ _ hj, List.getD_eq_getElem _ _ hneg,
    List.getElem_reverse]
  simp only [hidx]

/-- The shoelace sum negates under reversal of the vertex order. -/
theorem shoelace_sum_reverse (c : List Pt) :
    shoelace_sum c.reverse = -shoelace_sum c := by
  cases hn : c.length with
  | zero =>
    rw [List.length_eq_zero.mp hn]
    simp [shoelace_sum]
  | succ m =>
    have hrevlen : c.reverse.length = m + 1 := by rw [List.length_reverse, hn]
    rw [shoelace_sum_zmod c m hn, shoelace_sum_zmod c.reverse m hrevlen]
    calc ∑ i : ZMod (m + 1),
        cross2 (c.reverse.getD i.val (0, 0))
          (c.reverse.getD ((i + 1 : ZMod (m + 1)).val) (0, 0))
        = ∑ i : ZMod (m + 1),
            -cross2 (c.getD ((-(i + 2)).val) (0, 0))
              (c.getD ((-(i + 2) + 1).val) (0, 0)) := by
          apply Finset.sum_congr rfl
          intro i _
          rw [getD_reverse_zmod c m hn i, getD_reverse_zmod c m hn (i + 1)]
          have h1 : -(i + 1 + 1) = -(i + 2) := by ring
          have h2 : -(i + 1) = -(i + 2) + 1 := by ring
          rw [h1, cross2_antisymm, ← h2]
      _ = -∑ i : ZMod (m + 1),
            cross2 (c.getD ((-(i + 2)).val) (0, 0))
              (c.getD ((-(i + 2) + 1).val) (0, 0)) := by
          rw [← Finset.sum_neg_distrib]
      _ = -∑ i : ZMod (m + 1),
            cross2 (c.getD (i.val) (0, 0))
              (c.getD ((i + 1 : ZMod (m + 1)).val) (0, 0)) := by
          congr 1
          exact Fintype.sum_equiv
            (Function.Involutive.toPerm (fun i : ZMod (m + 1) => -(i + 2))
              (fun i => by ring)) _ _ (fun i => rfl)

/-- C8: polygon_area is invariant under rotation of the starting vertex by
any amount and under reversal of the ring winding, the absolute value of the
signed shoelace sum being taken. -/
theorem c8_shoelace_invariance (c : List Pt) (k : ℕ) :
    polygon_area (c.rotate k) = polygon_area c ∧
    polygon_area c.reverse = polygon_area c := by
  constructor
  · rw [polygon_area, polygon_area, shoelace_sum_rotate]
  · rw [polygon_area, polygon_area, shoelace_sum_reverse, abs_neg]


/-- Python max of a nonempty list is one of its elements. -/
theorem foldl_max_mem : ∀ (t : List ℚ) (a : ℚ), t.foldl max a ∈ a :: t := by
  intro t
  induction t with
  | nil => intro a; simp
  | cons b t ih =>
    intro a
    rw [List.foldl_cons]
    rcases List.mem_cons.mp (ih (max a b)) with h2 | h2
    · rw [h2]
      rcases max_choice a b with h | h
      · rw [h]
        exact List.mem_cons_self a (b :: t)
      · rw [h]
        exact List.mem_cons_of_mem a (List.mem_cons_self b t)
    · exact List.mem_cons_of_mem a (List.mem_cons_of_mem b h2)

/-- The start of a max fold never exceeds its result. -/
theorem le_self_foldl_max : ∀ (t : List ℚ) (a : ℚ), a ≤ t.foldl max a := by
  intro t
  induction t with
  | nil => intro a; exact le_refl a
  | cons b t ih =>
    intro a
    rw [List.foldl_cons]
    exact le_trans (le_max_left a b) (ih (max a b))

/-- Python max of a nonempty list dominates every element. -/
theorem le_foldl_max : ∀ (t : List ℚ) (a x : ℚ), x ∈ a :: t → x ≤ t.foldl max a := by
  intro t
  induction t with
  | nil =>
    intro a x hx
    rw [List.mem_singleton] at hx
    rw [hx, List.foldl_nil]
  | cons b t ih =>
    intro a x hx
    rw [List.foldl_cons]
    rcases List.mem_cons.mp hx with h | h
    · rw [h]
      exact le_trans (le_max_left a b) (le_self_foldl_max t (max a b))
    · rcases List.mem_cons.mp h with h2 | h2
      · rw [h2]
        exact le_trans (le_max_right a b) (le_self_foldl_max t (max a b))
      · exact ih (max a b) x (List.mem_cons_of_mem _ h2)

/-- Python list.index of an element of the list: the found position is in
range, holds the element, and no earlier position does. -/
theorem findIdx_eq_spec (l : List ℚ) (mval : ℚ) (h : mval ∈ l) :
    l.findIdx (fun x => x = mval) < l.length ∧
    l.getD (l.findIdx (fun x => x = mval)) 0 = mval ∧
    ∀ j < l.findIdx (fun x => x = mval), l.getD j 0 ≠ mval := by
  induction l with
  | nil => exact absurd h (List.not_mem_nil mval)
  | cons b t ih =>
    rw [List.findIdx_cons]
    by_cases hb : b = mval
    · simp [hb]
    · have hdec : (fun x => decide (x = mval)) b = false := by
        simp [hb]
      simp only [hdec, cond_false]
      have hmem : mval ∈ t := by
        rcases List.mem_cons.mp h with h2 | h2
        · exact absurd h2.symm hb
        · exact h2
      obtain ⟨ih1, ih2, ih3⟩ := ih hmem
      refine ⟨by simpa using Nat.succ_lt_succ ih1, by simpa using ih2, ?_⟩
      intro j hj
      cases j with
      | zero => simpa using hb
      | succ j2 =>
        rw [List.getD_cons_succ]
        exact ih3 j2 (Nat.lt_of_succ_lt_succ hj)

/-- C6: the analyzer selects the first polygon of maximal shoelace area and
reports its area-weighted centroid rounded to four decimals. -/
theorem c6_analyzer_first_max (polys : List (List Pt)) (h : polys ≠ []) :
    ∃ idx, idx < polys.length ∧
      (∀ j, j < polys.length →
        polygon_area (polys.getD j []) ≤ polygon_area (polys.getD idx [])) ∧
      (∀ j, j < idx →
        polygon_area (polys.getD j []) < polygon_area (polys.getD idx [])) ∧
      analyzer polys = compute_centroid (polys.getD idx []) ∧
      (∀ cx cy, centroid_xy (polys.getD idx []) = some (cx, cy) →
        analyzer polys = some (round4 cx, round4 cy)) := by
  obtain ⟨p0, ps, rfl⟩ := List.exists_cons_of_ne_nil h
  have hmmem := foldl_max_mem (ps.map polygon_area) (polygon_area p0)
  obtain ⟨hidxlt, hidxeq, hidxfirst⟩ :=
    findIdx_eq_spec (polygon_area p0 :: ps.map polygon_area)
      ((ps.map polygon_area).foldl max (polygon_area p0)) hmmem
  have hlen : (polygon_area p0 :: ps.map polygon_area).length =
      (p0 :: ps).length := by simp
  have hgd : ∀ j, j < (p0 :: ps).length →
      (polygon_area p0 :: ps.map polygon_area).getD j 0 =
        polygon_area ((p0 :: ps).getD j []) := by
    intro j hj
    have hj2 : j < (polygon_area p0 :: ps.map polygon_area).length := by
      rw [hlen]; exact hj
    rw [List.getD_eq_getElem _ _ hj2, List.getD_eq_getElem _ _ hj]
    have hj3 : j < ((p0 :: ps).map polygon_area).length := by simpa using hj2
    show ((p0 :: ps).map polygon_area)[j] = _
    rw [List.getElem_map]
  refine ⟨(polygon_area p0 :: ps.map polygon_area).findIdx
    (fun x => x = (ps.map polygon_area).foldl max (polygon_area p0)),
    by rw [← hlen]; exact hidxlt, ?_, ?_, ?_, ?_⟩
  · intro j hj
    have hj2 : j < (polygon_area p0 :: ps.map polygon_area).length := by
      rw [hlen]; exact hj
    rw [← hgd j hj, ← hgd _ (by rw [← hlen]; exact hidxlt), hidxeq]
    apply le_foldl_max
    rw [List.getD_eq_getElem _ _ hj2]
    exact List.getElem_mem hj2
  · intro j hj
    have hjlt : j < (p0 :: ps).length := by
      rw [← hlen]
      exact lt_trans hj hidxlt
    have hj2 : j < (polygon_area p0 :: ps.map polygon_area).length := by
      rw [hlen]; exact hjlt
    rw [← hgd j hjlt, ← hgd _ (by rw [← hlen]; exact hidxlt), hidxeq]
    apply lt_of_le_of_ne
    · apply le_foldl_max
      rw [List.getD_eq_getElem _ _ hj2]
      exact List.getElem_mem hj2
    · exact hidxfirst j hj
  · rfl
  · intro cx cy hc
    show analyzer (p0 :: ps) = _
    have : analyzer (p0 :: ps) = compute_centroid ((p0 :: ps).getD
      ((polygon_area p0 :: ps.map polygon_area).findIdx
        (fun x => x = (ps.map polygon_area).foldl max (polygon_area p0))) []) := rfl
    rw [this, compute_centroid, hc]
    rfl


/-- C6 witness: the theorem instantiated on two concrete triangles of areas
1/2 and 2. -/
theorem c6_analyzer_first_max_witness :
    ∃ idx, idx < ([[(0, 0), (1, 0), (0, 1)], [(0, 0), (2, 0), (0, 2)]] :
        List (List Pt)).length ∧
      (∀ j, j < ([[(0, 0), (1, 0), (0, 1)], [(0, 0), (2, 0), (0, 2)]] :
          List (List Pt)).length →
        polygon_area ([[(0, 0), (1, 0), (0, 1)],
            [(0, 0), (2, 0), (0, 2)]].getD j []) ≤
          polygon_area ([[(0, 0), (1, 0), (0, 1)],
            [(0, 0), (2, 0), (0, 2)]].getD idx [])) ∧
      (∀ j, j < idx →
        polygon_area ([[(0, 0), (1, 0), (0, 1)],
            [(0, 0), (2, 0), (0, 2)]].getD j []) <
          polygon_area ([[(0, 0), (1, 0), (0, 1)],
            [(0, 0), (2, 0), (0, 2)]].getD idx [])) ∧
      analyzer [[(0, 0), (1, 0), (0, 1)], [(0, 0), (2, 0), (0, 2)]] =
        compute_centroid ([[(0, 0), (1, 0), (0, 1)],
          [(0, 0), (2, 0), (0, 2)]].getD idx []) ∧
      (∀ cx cy, centroid_xy ([[(0, 0), (1, 0), (0, 1)],
          [(0, 0), (2, 0), (0, 2)]].getD idx []) = some (cx, cy) →
        analyzer [[(0, 0), (1, 0), (0, 1)], [(0, 0), (2, 0), (0, 2)]] =
          some (round4 cx, round4 cy)) :=
  c6_analyzer_first_max [[(0, 0), (1, 0), (0, 1)], [(0, 0), (2, 0), (0, 2)]]
    (by decide)

end ConvertCountries
